import Mathlib

/-!
Verification development for the ai_radar feed-merge engine
(`src/ai_radar.py`).  Python strings are modelled as Lean `String`
(free text also as `List Char` where character-level operations are
needed); CSV rows / record dicts are modelled as a `Record` structure
holding every field that `iter_feed` produces; the in-memory ledger is
a `List Record`.
-/

namespace AiRadar

/-- One ledger row, with exactly the fields built by `iter_feed`
(src/ai_radar.py lines 177-197).  All fields are strings, as in the
CSV-backed Python dicts. -/
structure Record where
  id : String
  company : String
  product : String
  category : String
  status : String
  status_date : String
  first_seen : String
  last_seen : String
  change_type : String
  version : String
  summary : String
  source_title : String
  source_url : String
  source_type : String
  source_priority : String
  confidence : String
  tags : String
  regions : String
  notes : String
deriving DecidableEq, Repr

/-- The all-empty record, used only as the default for out-of-range
indexing (which never happens on the indices `upsert` uses). -/
def emptyRecord : Record :=
  ⟨"", "", "", "", "", "", "", "", "", "", "", "", "", "", "", "", "", "", ""⟩

instance : Inhabited Record := ⟨emptyRecord⟩

/-- STATUS_RANK (src/ai_radar.py line 49), as an association list. -/
def STATUS_RANK : List (String × Nat) :=
  [("Delayed", 0), ("Preview", 1), ("Announced", 2),
   ("Upgraded", 3), ("Shipped", 4), ("Deprecated", 5)]

/-- `STATUS_RANK.get(s, 2)`: the rank of a status label, defaulting to 2
for labels outside the table (src/ai_radar.py lines 212-213). -/
def status_rank (s : String) : Nat := (STATUS_RANK.lookup s).getD 2

/-- Index of the LAST occurrence of `url` in a list of urls.  Python
builds `by_url = {r["source_url"]: i for i, r in enumerate(rows)}`
(line 204); on duplicate keys a dict comprehension keeps the last
index, so the lookup finds the last matching row. -/
def last_idx_of (urls : List String) (url : String) : Option Nat :=
  match urls with
  | [] => none
  | u :: us =>
    match last_idx_of us url with
    | some i => some (i + 1)
    | none => if u = url then some 0 else none

/-- `by_url` lookup of `upsert` (src/ai_radar.py line 204). -/
def by_url_idx (rows : List Record) (url : String) : Option Nat :=
  last_idx_of (rows.map Record.source_url) url

/-- The row currently stored for `url`, via the `by_url` index. -/
def stored_record (rows : List Record) (url : String) : Option Record :=
  (by_url_idx rows url).bind fun i => rows[i]?

/-- The status currently stored for `url`. -/
def stored_status (rows : List Record) (url : String) : Option String :=
  (stored_record rows url).map Record.status

/-- The row after the promotion branch of `upsert` (src/ai_radar.py
lines 210, 215-220): `last_seen`, `status`, `status_date`,
`change_type`, `version`, `summary`, `tags` mutated in place.
`incoming.get("version","") or old.get("version","")` is the Python
string `or`: the incoming value when non-empty, else the old one;
`incoming.get("tags", ...)` always finds the key on records built by
`iter_feed`, hence `incoming.tags`. -/
def promoted_row (old incoming : Record) (today : String) : Record :=
  { old with
    last_seen := today
    status := incoming.status
    status_date := today
    change_type := incoming.change_type
    version := if incoming.version ≠ "" then incoming.version else old.version
    summary := incoming.summary
    tags := incoming.tags }

/-- The row after the non-promotion branch of `upsert` (src/ai_radar.py
lines 210, 222-223): `last_seen` refreshed, and the summary overwritten
only when the incoming summary is non-empty. -/
def updated_row (old incoming : Record) (today : String) : Record :=
  if incoming.summary ≠ "" then
    { old with last_seen := today, summary := incoming.summary }
  else
    { old with last_seen := today }

/-- `upsert(rows, incoming)` (src/ai_radar.py lines 199-227), with the
ambient `datetime.date.today().isoformat()` passed explicitly as
`today`.  Python mutates `rows` in place; here the updated ledger is
returned as the third component, the action string first and the
canonical row second, mirroring `return action, rows[i]`. -/
def upsert (rows : List Record) (incoming : Record) (today : String) :
    String × Record × List Record :=
  match by_url_idx rows incoming.source_url with
  | some i =>
    let old := (rows[i]?).getD emptyRecord
    if status_rank incoming.status > status_rank old.status then
      let r2 := promoted_row old incoming today
      ("promoted", r2, rows.set i r2)
    else
      let r2 := updated_row old incoming today
      ("updated", r2, rows.set i r2)
  | none => ("added", incoming, rows ++ [incoming])

/-- A whole run: fold `upsert` over a stream of (incoming, today)
pairs, as the feed loop does (src/ai_radar.py lines 289-297). -/
def run_upserts (rows : List Record) (ins : List (Record × String)) : List Record :=
  match ins with
  | [] => rows
  | (inc, d) :: rest => run_upserts (upsert rows inc d).2.2 rest

-- ---------------------------------------------------------------
-- sort_for_output (src/ai_radar.py lines 121-124)
-- ---------------------------------------------------------------

/-- `d(x) = x or "0000-00-00"` (line 122): empty date strings sort as
the sentinel. -/
def csv_date (s : String) : String := if s = "" then "0000-00-00" else s

/-- The Python sort key tuple (line 123), as a list of strings compared
lexicographically component by component. -/
def sort_key (r : Record) : List String :=
  [csv_date r.status_date, csv_date r.last_seen, r.company, r.product]

/-- Python string `<`: strict lexicographic comparison of the
code-point sequences. -/
def chars_lt : List Char → List Char → Bool
  | _, [] => false
  | [], _ :: _ => true
  | a :: as, b :: bs => if a = b then chars_lt as bs else decide (a < b)

/-- Lexicographic ≤ on equal-length string tuples, with Python string
comparison (code-point lexicographic). -/
def strs_lex_le : List String → List String → Bool
  | [], _ => true
  | _ :: _, [] => false
  | x :: xs, y :: ys => if x = y then strs_lex_le xs ys else chars_lt x.data y.data

/-- The comparison `rows.sort(key=..., reverse=True)` sorts by: `r1`
may precede `r2` iff `key r1 ≥ key r2`. -/
def sort_le (r1 r2 : Record) : Bool := strs_lex_le (sort_key r2) (sort_key r1)

def sort_rel (r1 r2 : Record) : Prop := sort_le r1 r2 = true

instance : DecidableRel sort_rel :=
  fun r1 r2 => inferInstanceAs (Decidable (sort_le r1 r2 = true))

/-- `sort_for_output` (lines 121-124): a stable sort on the key tuple,
descending.  Python `list.sort` and `List.insertionSort` are both
stable sorts over the same total preorder, so they compute the same
list. -/
def sort_for_output (rows : List Record) : List Record :=
  List.insertionSort sort_rel rows

/-- The ordering the spec sentence asserts for the persisted ledger:
`status_date` desc, `last_seen` desc, then `company` ASC, `product`
ASC.  Written from the spec words, for comparison with `sort_le`. -/
def spec_sort_le (r1 r2 : Record) : Bool :=
  if csv_date r1.status_date ≠ csv_date r2.status_date then
    chars_lt (csv_date r2.status_date).data (csv_date r1.status_date).data
  else if csv_date r1.last_seen ≠ csv_date r2.last_seen then
    chars_lt (csv_date r2.last_seen).data (csv_date r1.last_seen).data
  else if r1.company ≠ r2.company then chars_lt r1.company.data r2.company.data
  else (r1.product == r2.product) || chars_lt r1.product.data r2.product.data

-- ---------------------------------------------------------------
-- hash_id (src/ai_radar.py lines 59-61)
-- ---------------------------------------------------------------

/-- `str.lower()` on the ASCII range, per character. -/
def pyLower (l : List Char) : List Char := l.map Char.toLower

/-- Characters the regex class `[^a-z0-9_]` does NOT match, i.e. the
characters `re.sub` keeps. -/
def id_keep (c : Char) : Bool :=
  ('a' ≤ c && c ≤ 'z') || ('0' ≤ c && c ≤ '9') || c == '_'

/-- Scanner for `re.sub(r"[^a-z0-9_]+", "-", s)`: the flag records
whether the previous character was part of a non-kept run whose hyphen
has already been emitted. -/
def collapse_go : Bool → List Char → List Char
  | _, [] => []
  | inRun, c :: cs =>
    if id_keep c then c :: collapse_go false cs
    else if inRun then collapse_go true cs
    else '-' :: collapse_go true cs

/-- `re.sub(r"[^a-z0-9_]+", "-", s)`: each maximal run of non-kept
characters becomes a single hyphen. -/
def collapse_runs (l : List Char) : List Char := collapse_go false l

/-- `hash_id` (lines 59-61): join with a pipe separator, lower-case,
collapse runs of `[^a-z0-9_]` to hyphens, truncate to 64 chars. -/
def hash_id (company title date_str : List Char) : List Char :=
  (collapse_runs (pyLower (company ++ '|' :: (title ++ '|' :: date_str)))).take 64

-- ---------------------------------------------------------------
-- normalize_summary truncation (src/ai_radar.py lines 78-93)
-- ---------------------------------------------------------------

/-- The whitespace characters of Python `str.strip` / `\s` (ASCII). -/
def pyIsSpace (c : Char) : Bool :=
  c == ' ' || c == '\t' || c == '\n' || c == '\r' ||
  c == Char.ofNat 11 || c == Char.ofNat 12

def lstrip (l : List Char) : List Char := l.dropWhile pyIsSpace

def rstrip (l : List Char) : List Char := (l.reverse.dropWhile pyIsSpace).reverse

/-- Python `str.strip()`. -/
def strip (l : List Char) : List Char := lstrip (rstrip l)

/-- `s.rfind(a + b)` for a two-character pattern: the greatest index
`i` with `l[i] = a` and `l[i+1] = b`, if any. -/
def rfind2 (a b : Char) : List Char → Option Nat
  | c :: d :: rest =>
    (match rfind2 a b (d :: rest) with
     | some i => some (i + 1)
     | none => if c == a && d == b then some 0 else none)
  | _ => none

/-- `max` over rfind results, where a missing match is Python `-1` and
thus never the maximum of found indices. -/
def opt_max (x y : Option Nat) : Option Nat :=
  match x, y with
  | none, y => y
  | x, none => x
  | some i, some j => some (max i j)

/-- `max(truncated.rfind(". "), truncated.rfind(".\n"),
truncated.rfind(".\t"))` (line 90). -/
def last_sentence_idx (t : List Char) : Option Nat :=
  opt_max (opt_max (rfind2 '.' ' ' t) (rfind2 '.' '\n' t)) (rfind2 '.' '\t' t)

/-- `normalize_summary` from the point where the feed text has been
cleaned (lines 84-93): markup stripping, entity unescaping and
whitespace collapsing (lines 81-82) happen before this and are taken
as given in `cleaned`.  Empty cleaned text falls back to the title;
text within the 500-char bound is returned as is; longer text is cut
at 500, preferring the last sentence boundary past offset 200. -/
def normalize_summary (cleaned fallback : List Char) : List Char :=
  if cleaned = [] then fallback
  else if cleaned.length ≤ 500 then cleaned
  else
    let truncated := rstrip (cleaned.take 500)
    match last_sentence_idx truncated with
    | some i => if 200 < i then strip (truncated.take (i + 1)) else strip truncated
    | none => strip truncated

-- ---------------------------------------------------------------
-- classify_status (src/ai_radar.py lines 41-48, 63-68)
-- ---------------------------------------------------------------

/-- Regular expressions, as used in STATUS_KEYWORDS: single-character
classes, concatenation, alternation, Kleene star, and the `\b` word
boundary. -/
inductive RE where
  | eps : RE
  | cls (p : Char → Bool) : RE
  | cat (a b : RE) : RE
  | alt (a b : RE) : RE
  | star (a : RE) : RE
  | wb : RE

/-- `\w` of Python `re` on ASCII text. -/
def isWordChar (c : Char) : Bool := c.isAlphanum || c == '_'

def optWord : Option Char → Bool
  | none => false
  | some c => isWordChar c

def headWord : List Char → Bool
  | [] => false
  | c :: _ => isWordChar c

/-- Backtracking matcher in continuation style.  `prev` is the
character just before the current position (for `\b`); `fuel` bounds
the recursion depth and is chosen large enough for every evaluation
in this file, so the matcher agrees with `re.search` semantics on the
inputs it is applied to.  A `star` iteration must consume input, as in
Python, so matching always terminates. -/
def mrun (fuel : Nat) (r : RE) (prev : Option Char) (s : List Char)
    (k : Option Char → List Char → Bool) : Bool :=
  match fuel with
  | 0 => false
  | fuel + 1 =>
    match r with
    | .eps => k prev s
    | .cls p =>
      match s with
      | [] => false
      | c :: cs => p c && k (some c) cs
    | .wb => (optWord prev != headWord s) && k prev s
    | .cat a b => mrun fuel a prev s (fun p2 s2 => mrun fuel b p2 s2 k)
    | .alt a b => mrun fuel a prev s k || mrun fuel b prev s k
    | .star a =>
      k prev s ||
      mrun fuel a prev s (fun p2 s2 =>
        if s2.length < s.length then mrun fuel (RE.star a) p2 s2 k else false)

/-- Try a match at every start position, as `re.search` does. -/
def search_from (fuel : Nat) (r : RE) (prev : Option Char) (s : List Char) : Bool :=
  mrun fuel r prev s (fun _ _ => true) ||
  match s with
  | [] => false
  | c :: cs => search_from fuel r (some c) cs

def re_size : RE → Nat
  | .eps => 1
  | .cls _ => 1
  | .wb => 1
  | .cat a b => re_size a + re_size b + 1
  | .alt a b => re_size a + re_size b + 1
  | .star a => re_size a + 1

/-- `re.search(pattern, s)` as a Boolean. -/
def re_search (r : RE) (s : List Char) : Bool :=
  search_from ((re_size r + 2) * (s.length + 2)) r none s

/-- A literal character sequence. -/
def re_lit (s : String) : RE :=
  s.toList.foldr (fun c acc => RE.cat (RE.cls (fun x => x == c)) acc) RE.eps

/-- `r+`. -/
def re_plus (r : RE) : RE := RE.cat r (RE.star r)

/-- `\s+`. -/
def sP : RE := re_plus (RE.cls pyIsSpace)

/-- `\d`. -/
def reDigit : RE := RE.cls Char.isDigit

/-- `(r|)`: an optional group. -/
def re_opt (r : RE) : RE := RE.alt r RE.eps

/-- n-ary alternation. -/
def re_alts : List RE → RE
  | [] => RE.eps
  | [r] => r
  | r :: rs => RE.alt r (re_alts rs)

/-- The Shipped pattern (line 42). -/
def shippedRE : RE :=
  RE.cat RE.wb (re_alts [
    RE.cat (re_lit "available") (RE.cat sP (re_lit "now")),
    RE.cat (re_lit "now") (RE.cat sP (re_lit "available")),
    re_lit "shipping",
    RE.cat (re_lit "ships") (RE.cat sP (re_lit "today")),
    RE.cat (re_lit "GA") RE.wb,
    RE.cat (re_lit "general") (RE.cat sP (re_lit "availability")),
    RE.cat (re_lit "launch") (RE.cat (re_alts [re_lit "ed", re_lit "ing"]) RE.wb),
    RE.cat (re_lit "available") (RE.cat sP (re_alts [re_lit "globally", re_lit "in", re_lit "today"]))])

/-- The Upgraded pattern (line 43). -/
def upgradedRE : RE :=
  RE.cat RE.wb (re_alts [
    RE.cat (re_lit "update") (RE.cat (re_opt (re_lit "d")) RE.wb),
    RE.cat (re_lit "v") (RE.cat (re_plus reDigit)
      (RE.cat (RE.star (RE.cat (re_lit ".") (re_plus reDigit))) RE.wb)),
    RE.cat (re_lit "performance") (RE.cat sP
      (RE.cat (re_lit "improv") (re_alts [re_lit "e", re_lit "ement"]))),
    re_lit "speedup",
    RE.cat (re_lit "latency") (RE.cat sP (re_lit "reduced")),
    RE.cat (re_lit "quality") (RE.cat sP (re_lit "improved")),
    RE.cat (re_lit "major") (RE.cat sP (re_lit "update")),
    RE.cat (re_lit "new") (RE.cat sP (re_lit "version"))])

/-- The Announced pattern (line 44). -/
def announcedRE : RE :=
  RE.cat RE.wb (re_alts [
    RE.cat (re_lit "announce") (RE.cat (re_alts [re_lit "d", re_lit "s", re_lit "ment"]) RE.wb),
    re_lit "introducing",
    re_lit "previewing",
    RE.cat (re_lit "coming") (RE.cat sP (re_lit "soon")),
    RE.cat (re_lit "sneak") (RE.cat sP (re_lit "peek")),
    RE.cat (re_lit "unveil") (re_alts [re_lit "ed", re_lit "s"])])

/-- The Preview pattern (line 45). -/
def previewRE : RE :=
  RE.cat RE.wb (RE.cat (re_alts [
    re_lit "beta",
    re_lit "preview",
    RE.cat (re_lit "limited") (RE.cat sP (re_lit "preview")),
    RE.cat (re_lit "private") (RE.cat sP (re_lit "preview")),
    RE.cat (re_lit "public") (RE.cat sP (re_lit "preview")),
    RE.cat (re_lit "early") (RE.cat sP (re_lit "access"))]) RE.wb)

/-- The Deprecated pattern (line 46). -/
def deprecatedRE : RE :=
  RE.cat RE.wb (re_alts [
    RE.cat (re_lit "deprecat") (re_alts [re_lit "e", re_lit "ed", re_lit "ion"]),
    RE.cat (re_lit "sunset") (re_opt (re_lit "ting")),
    RE.cat (re_lit "retire") (re_opt (re_lit "ment")),
    RE.cat (re_lit "EOL") RE.wb,
    RE.cat (re_lit "end") (RE.cat sP (RE.cat (re_lit "of") (RE.cat sP (re_lit "life"))))])

/-- The Delayed pattern (line 47). -/
def delayedRE : RE :=
  RE.cat RE.wb (RE.cat (re_alts [
    re_lit "delay",
    re_lit "delayed",
    RE.cat (re_lit "postpone") (re_alts [re_lit "d", re_lit "s"])]) RE.wb)

/-- The generic announce fallback pattern of line 68. -/
def fallbackAnnounceRE : RE :=
  RE.cat RE.wb (RE.cat (re_alts [re_lit "announce", re_lit "introduc", re_lit "unveil"]) RE.wb)

/-- STATUS_KEYWORDS (lines 41-48): the ordered (label, pattern) rules. -/
def STATUS_KEYWORDS : List (String × RE) :=
  [("Shipped", shippedRE),
   ("Upgraded", upgradedRE),
   ("Announced", announcedRE),
   ("Preview", previewRE),
   ("Deprecated", deprecatedRE),
   ("Delayed", delayedRE)]

/-- `classify_status` (lines 63-68): lower-case the text, return the
label of the first matching pattern, else the announce/upgrade
default. -/
def classify_status (text : List Char) : String :=
  let t := pyLower text
  match STATUS_KEYWORDS.find? (fun lp => re_search lp.2 t) with
  | some lp => lp.1
  | none => if re_search fallbackAnnounceRE t then "Announced" else "Upgraded"

-- ---------------------------------------------------------------
-- Concrete sample data for witnesses and counterexamples
-- ---------------------------------------------------------------

/-- A stored record with status Announced. -/
def recAnnounced : Record :=
  { emptyRecord with
    company := "OpenAI", product := "Foo", status := "Announced",
    status_date := "2024-01-01", first_seen := "2024-01-01",
    last_seen := "2024-01-01", change_type := "New", summary := "first word",
    source_url := "https://x/a", tags := "ai" }

/-- An incoming record for the same url with status Shipped. -/
def recShipped : Record :=
  { recAnnounced with
    status := "Shipped", status_date := "2024-02-01", change_type := "Launch",
    version := "2", summary := "it shipped", last_seen := "2024-02-02" }

/-- An incoming record for the same url with status Preview (lower
rank than Announced). -/
def recPreview : Record :=
  { recAnnounced with
    status := "Preview", status_date := "2024-02-01", summary := "still beta" }

/-- A stored record whose status label is outside STATUS_RANK. -/
def recUnknown : Record :=
  { recAnnounced with status := "Removed" }

/-- Two rows with identical dates and differing companies, for the
sort-order counterexample. -/
def rowCompanyA : Record :=
  { emptyRecord with
    company := "A", product := "p", status_date := "2024-01-01",
    last_seen := "2024-01-01", source_url := "https://x/1" }

def rowCompanyB : Record :=
  { rowCompanyA with company := "B", source_url := "https://x/2" }

/-- The C8 input text. -/
def nowAvailableBeta : List Char := "Now Available: Foo Beta".toList

/-- A 600-char cleaned summary whose last sentence boundary is the
period at offset 420. -/
def summary600 : List Char :=
  List.replicate 420 'a' ++ '.' :: ' ' :: List.replicate 178 'b'

/-- A 601-char cleaned summary whose only sentence boundary is at
offset 100, before the 200-char threshold. -/
def summary601 : List Char :=
  List.replicate 100 'a' ++ '.' :: ' ' :: List.replicate 499 'b'

-- ---------------------------------------------------------------
-- Basic facts about the by_url index
-- ---------------------------------------------------------------

theorem last_idx_of_lt_length (urls : List String) (url : String) (i : Nat)
    (h : last_idx_of urls url = some i) : i < urls.length := by
  induction urls generalizing i with
  | nil => simp [last_idx_of] at h
  | cons u us ih =>
    simp only [last_idx_of] at h
    cases hrec : last_idx_of us url with
    | some j =>
      rw [hrec] at h
      cases h
      exact Nat.succ_lt_succ (ih j hrec)
    | none =>
      rw [hrec] at h
      by_cases hu : u = url
      · simp [hu] at h
        cases h
        exact Nat.succ_pos _
      · simp [hu] at h

theorem last_idx_of_get (urls : List String) (url : String) (i : Nat)
    (h : last_idx_of urls url = some i) : urls[i]? = some url := by
  induction urls generalizing i with
  | nil => simp [last_idx_of] at h
  | cons u us ih =>
    simp only [last_idx_of] at h
    cases hrec : last_idx_of us url with
    | some j =>
      rw [hrec] at h
      cases h
      simpa using ih j hrec
    | none =>
      rw [hrec] at h
      by_cases hu : u = url
      · simp [hu] at h
        cases h
        simp [hu]
      · simp [hu] at h

theorem last_idx_of_none (urls : List String) (url : String)
    (h : last_idx_of urls url = none) : url ∉ urls := by
  induction urls with
  | nil => simp
  | cons u us ih =>
    simp only [last_idx_of] at h
    cases hrec : last_idx_of us url with
    | some j => rw [hrec] at h; cases h
    | none =>
      rw [hrec] at h
      by_cases hu : u = url
      · simp [hu] at h
      · simp [List.mem_cons]
        exact ⟨fun hh => hu hh.symm, ih hrec⟩

theorem by_url_idx_get (rows : List Record) (url : String) (i : Nat)
    (h : by_url_idx rows url = some i) :
    ∃ r, rows[i]? = some r ∧ r.source_url = url := by
  have hg := last_idx_of_get _ _ _ h
  rw [List.getElem?_map] at hg
  cases hr : rows[i]? with
  | none => rw [hr] at hg; cases hg
  | some r =>
    rw [hr] at hg
    simp at hg
    exact ⟨r, rfl, hg⟩

theorem by_url_idx_none (rows : List Record) (url : String)
    (h : by_url_idx rows url = none) : ∀ r ∈ rows, r.source_url ≠ url := by
  intro r hr
  have := last_idx_of_none _ _ h
  intro heq
  exact this (heq ▸ List.mem_map_of_mem Record.source_url hr)

theorem last_idx_of_append (l1 l2 : List String) (url : String) :
    last_idx_of (l1 ++ l2) url =
      match last_idx_of l2 url with
      | some k => some (l1.length + k)
      | none => last_idx_of l1 url := by
  induction l1 with
  | nil => cases h : last_idx_of l2 url <;> simp [h, last_idx_of]
  | cons u us ih =>
    simp only [List.cons_append, last_idx_of, List.append_eq, ih]
    cases h : last_idx_of l2 url with
    | some k =>
      simp only [h, List.length_cons]
      exact congrArg some (by omega)
    | none =>
      simp only [h, last_idx_of]

theorem set_same {α : Type} (l : List α) (i : Nat) (a : α)
    (h : l[i]? = some a) : l.set i a = l := by
  induction l generalizing i with
  | nil => simp at h
  | cons b bs ih =>
    cases i with
    | zero => simp at h; simp [h]
    | succ j => simp at h; simp [List.set_cons_succ, ih j h]

theorem getElem?_some_lt {α : Type} (l : List α) (i : Nat) (a : α)
    (h : l[i]? = some a) : i < l.length := by
  by_contra hge
  rw [List.getElem?_eq_none (Nat.le_of_not_lt hge)] at h
  cases h

-- Field projections of the two mutation helpers.

theorem promoted_row_source_url (old inc : Record) (d : String) :
    (promoted_row old inc d).source_url = old.source_url := rfl

theorem promoted_row_status (old inc : Record) (d : String) :
    (promoted_row old inc d).status = inc.status := rfl

theorem updated_row_source_url (old inc : Record) (d : String) :
    (updated_row old inc d).source_url = old.source_url := by
  unfold updated_row; split <;> rfl

theorem updated_row_status (old inc : Record) (d : String) :
    (updated_row old inc d).status = old.status := by
  unfold updated_row; split <;> rfl

theorem updated_row_eq (old inc : Record) (d : String) :
    updated_row old inc d =
      { old with
        last_seen := d
        summary := if inc.summary ≠ "" then inc.summary else old.summary } := by
  by_cases h : inc.summary ≠ ""
  · unfold updated_row
    rw [if_pos h, if_pos h]
  · unfold updated_row
    rw [if_neg h, if_neg h]

/-- In the url-present branch, the per-row mutation does not change the
url column, so the whole `by_url` index is unchanged. -/
theorem urls_set_preserved (rows : List Record) (i : Nat) (old r2 : Record)
    (hold : rows[i]? = some old) (hurl : r2.source_url = old.source_url) :
    (rows.set i r2).map Record.source_url = rows.map Record.source_url := by
  rw [List.map_set]
  apply set_same
  rw [List.getElem?_map, hold]
  simp [hurl]

theorem by_url_idx_set (rows : List Record) (i : Nat) (old r2 : Record)
    (hold : rows[i]? = some old) (hurl : r2.source_url = old.source_url)
    (url : String) :
    by_url_idx (rows.set i r2) url = by_url_idx rows url := by
  unfold by_url_idx
  rw [urls_set_preserved rows i old r2 hold hurl]

theorem by_url_idx_append_ne (rows : List Record) (inc : Record) (url : String)
    (hne : inc.source_url ≠ url) :
    by_url_idx (rows ++ [inc]) url = by_url_idx rows url := by
  unfold by_url_idx
  rw [List.map_append, last_idx_of_append]
  simp [last_idx_of, hne]

theorem by_url_idx_append_self (rows : List Record) (inc : Record) :
    by_url_idx (rows ++ [inc]) inc.source_url = some rows.length := by
  unfold by_url_idx
  rw [List.map_append, last_idx_of_append]
  simp [last_idx_of]

/-- The url-present branch of `upsert`, with the stored row named. -/
theorem upsert_present (rows : List Record) (inc : Record) (d : String)
    (i : Nat) (old : Record)
    (hi : by_url_idx rows inc.source_url = some i)
    (hold : rows[i]? = some old) :
    upsert rows inc d =
      if status_rank inc.status > status_rank old.status then
        ("promoted", promoted_row old inc d, rows.set i (promoted_row old inc d))
      else
        ("updated", updated_row old inc d, rows.set i (updated_row old inc d)) := by
  unfold upsert
  rw [hi]
  simp only [hold, Option.getD_some]

/-- The url-absent branch of `upsert`. -/
theorem upsert_absent (rows : List Record) (inc : Record) (d : String)
    (h : by_url_idx rows inc.source_url = none) :
    upsert rows inc d = ("added", inc, rows ++ [inc]) := by
  unfold upsert
  rw [h]

theorem stored_record_some (rows : List Record) (url : String) (r : Record)
    (h : stored_record rows url = some r) :
    ∃ i, by_url_idx rows url = some i ∧ rows[i]? = some r ∧ r.source_url = url := by
  unfold stored_record at h
  cases hi : by_url_idx rows url with
  | none => rw [hi] at h; cases h
  | some i =>
    rw [hi] at h
    simp only [Option.some_bind] at h
    obtain ⟨r2, hr2, hurl⟩ := by_url_idx_get rows url i hi
    rw [h] at hr2
    cases hr2
    exact ⟨i, rfl, h, hurl⟩

theorem stored_record_set_self (rows : List Record) (i : Nat) (old r2 : Record)
    (hold : rows[i]? = some old) (hurl : r2.source_url = old.source_url)
    (hi : by_url_idx rows old.source_url = some i) :
    stored_record (rows.set i r2) old.source_url = some r2 := by
  unfold stored_record
  rw [by_url_idx_set rows i old r2 hold hurl, hi]
  simp only [Option.some_bind]
  exact List.getElem?_set_self (getElem?_some_lt rows i old hold)

-- ---------------------------------------------------------------
-- Merge-engine step lemmas
-- ---------------------------------------------------------------

theorem upsert_status_step (rows : List Record) (inc : Record) (d url : String)
    (s s1 : String)
    (h0 : stored_status rows url = some s)
    (h1 : stored_status (upsert rows inc d).2.2 url = some s1) :
    status_rank s ≤ status_rank s1 ∧ (s1 ≠ s → status_rank s < status_rank s1) := by
  unfold stored_status at h0
  cases hsr : stored_record rows url with
  | none => rw [hsr] at h0; cases h0
  | some rold =>
    rw [hsr] at h0
    simp only [Option.map_some', Option.some_inj] at h0
    obtain ⟨j, hj, hgj, hjurl⟩ := stored_record_some rows url rold hsr
    cases hbi : by_url_idx rows inc.source_url with
    | none =>
      rw [upsert_absent rows inc d hbi] at h1
      have hne : inc.source_url ≠ url := by
        intro he
        rw [he, hj] at hbi
        cases hbi
      unfold stored_status stored_record at h1
      rw [by_url_idx_append_ne rows inc url hne, hj] at h1
      simp only [Option.some_bind] at h1
      rw [List.getElem?_append_left (getElem?_some_lt rows j rold hgj), hgj] at h1
      simp only [Option.map_some', Option.some_inj] at h1
      rw [← h0, ← h1]
      exact ⟨Nat.le_refl _, fun hc => absurd rfl hc⟩
    | some i =>
      obtain ⟨oldr, hgi, hiurl⟩ := by_url_idx_get rows inc.source_url i hbi
      rw [upsert_present rows inc d i oldr hbi hgi] at h1
      by_cases hc : status_rank inc.status > status_rank oldr.status
      · rw [if_pos hc] at h1
        unfold stored_status stored_record at h1
        rw [by_url_idx_set rows i oldr (promoted_row oldr inc d) hgi
              (promoted_row_source_url oldr inc d), hj] at h1
        simp only [Option.some_bind] at h1
        by_cases hij : j = i
        · subst hij
          rw [List.getElem?_set_self (getElem?_some_lt rows j oldr hgi)] at h1
          simp only [Option.map_some', Option.some_inj] at h1
          have hro : rold = oldr := by
            rw [hgj] at hgi
            exact Option.some_inj.mp hgi
          rw [← h1, promoted_row_status, ← h0, hro]
          exact ⟨Nat.le_of_lt hc, fun _ => hc⟩
        · rw [List.getElem?_set_ne (Ne.symm hij), hgj] at h1
          simp only [Option.map_some', Option.some_inj] at h1
          rw [← h0, ← h1]
          exact ⟨Nat.le_refl _, fun hcne => absurd rfl hcne⟩
      · rw [if_neg hc] at h1
        unfold stored_status stored_record at h1
        rw [by_url_idx_set rows i oldr (updated_row oldr inc d) hgi
              (updated_row_source_url oldr inc d), hj] at h1
        simp only [Option.some_bind] at h1
        by_cases hij : j = i
        · subst hij
          rw [List.getElem?_set_self (getElem?_some_lt rows j oldr hgi)] at h1
          simp only [Option.map_some', Option.some_inj] at h1
          have hro : rold = oldr := by
            rw [hgj] at hgi
            exact Option.some_inj.mp hgi
          rw [← h1, updated_row_status, ← h0, hro]
          exact ⟨Nat.le_refl _, fun hcne => absurd rfl hcne⟩
        · rw [List.getElem?_set_ne (Ne.symm hij), hgj] at h1
          simp only [Option.map_some', Option.some_inj] at h1
          rw [← h0, ← h1]
          exact ⟨Nat.le_refl _, fun hcne => absurd rfl hcne⟩

theorem upsert_preserves_present (rows : List Record) (inc : Record) (d url : String)
    (s : String) (h0 : stored_status rows url = some s) :
    ∃ s1, stored_status (upsert rows inc d).2.2 url = some s1 := by
  unfold stored_status at h0
  cases hsr : stored_record rows url with
  | none => rw [hsr] at h0; cases h0
  | some rold =>
    obtain ⟨j, hj, hgj, hjurl⟩ := stored_record_some rows url rold hsr
    cases hbi : by_url_idx rows inc.source_url with
    | none =>
      have hne : inc.source_url ≠ url := by
        intro he
        rw [he, hj] at hbi
        cases hbi
      rw [upsert_absent rows inc d hbi]
      refine ⟨rold.status, ?_⟩
      unfold stored_status stored_record
      rw [by_url_idx_append_ne rows inc url hne, hj]
      simp only [Option.some_bind]
      rw [List.getElem?_append_left (getElem?_some_lt rows j rold hgj), hgj]
      rfl
    | some i =>
      obtain ⟨oldr, hgi, hiurl⟩ := by_url_idx_get rows inc.source_url i hbi
      rw [upsert_present rows inc d i oldr hbi hgi]
      by_cases hc : status_rank inc.status > status_rank oldr.status
      · rw [if_pos hc]
        unfold stored_status stored_record
        rw [by_url_idx_set rows i oldr (promoted_row oldr inc d) hgi
              (promoted_row_source_url oldr inc d), hj]
        simp only [Option.some_bind]
        by_cases hij : j = i
        · subst hij
          rw [List.getElem?_set_self (getElem?_some_lt rows j oldr hgi)]
          exact ⟨_, rfl⟩
        · rw [List.getElem?_set_ne (Ne.symm hij), hgj]
          exact ⟨_, rfl⟩
      · rw [if_neg hc]
        unfold stored_status stored_record
        rw [by_url_idx_set rows i oldr (updated_row oldr inc d) hgi
              (updated_row_source_url oldr inc d), hj]
        simp only [Option.some_bind]
        by_cases hij : j = i
        · subst hij
          rw [List.getElem?_set_self (getElem?_some_lt rows j oldr hgi)]
          exact ⟨_, rfl⟩
        · rw [List.getElem?_set_ne (Ne.symm hij), hgj]
          exact ⟨_, rfl⟩

theorem upsert_nodup_step (rows : List Record) (inc : Record) (d : String)
    (h : (rows.map Record.source_url).Nodup) :
    (((upsert rows inc d).2.2).map Record.source_url).Nodup := by
  cases hbi : by_url_idx rows inc.source_url with
  | some i =>
    obtain ⟨old, hgi, hurl⟩ := by_url_idx_get rows inc.source_url i hbi
    rw [upsert_present rows inc d i old hbi hgi]
    by_cases hc : status_rank inc.status > status_rank old.status
    · rw [if_pos hc]
      show ((rows.set i (promoted_row old inc d)).map Record.source_url).Nodup
      rw [urls_set_preserved rows i old (promoted_row old inc d) hgi
            (promoted_row_source_url old inc d)]
      exact h
    · rw [if_neg hc]
      show ((rows.set i (updated_row old inc d)).map Record.source_url).Nodup
      rw [urls_set_preserved rows i old (updated_row old inc d) hgi
            (updated_row_source_url old inc d)]
      exact h
  | none =>
    rw [upsert_absent rows inc d hbi]
    simp only [List.map_append, List.map_cons, List.map_nil]
    have hnm : inc.source_url ∉ rows.map Record.source_url := last_idx_of_none _ _ hbi
    rw [List.nodup_append]
    refine ⟨h, List.nodup_singleton _, ?_⟩
    intro a ha hb
    rw [List.mem_singleton] at hb
    exact hnm (hb ▸ ha)

-- ---------------------------------------------------------------
-- Claim theorems: ledger merge engine
-- ---------------------------------------------------------------

/-- Claim C1: across any sequence of merges, the rank of the status
stored for a given source_url (per STATUS_RANK) never decreases, and a
single merge changes the stored status only when the incoming rank is
strictly greater than the stored one. -/
theorem upsert_status_monotone :
    (∀ rows ins url s s2,
      stored_status rows url = some s →
      stored_status (run_upserts rows ins) url = some s2 →
      status_rank s ≤ status_rank s2) ∧
    (∀ rows inc d url s s1,
      stored_status rows url = some s →
      stored_status (upsert rows inc d).2.2 url = some s1 →
      s1 ≠ s → status_rank s < status_rank s1) := by
  constructor
  · intro rows ins url s s2 h0 h2
    induction ins generalizing rows s with
    | nil =>
      unfold run_upserts at h2
      rw [h0] at h2
      cases h2
      exact Nat.le_refl _
    | cons p rest ih =>
      obtain ⟨inc, d⟩ := p
      obtain ⟨s1, hs1⟩ := upsert_preserves_present rows inc d url s h0
      have hstep := (upsert_status_step rows inc d url s s1 h0 hs1).1
      have hrest : stored_status (run_upserts (upsert rows inc d).2.2 rest) url = some s2 := h2
      exact Nat.le_trans hstep (ih _ _ hs1 hrest)
  · intro rows inc d url s s1 h0 h1 hne
    exact (upsert_status_step rows inc d url s s1 h0 h1).2 hne

/-- Witness for C1 at a concrete input: promoting an Announced record
to Shipped keeps the rank non-decreasing, and the change is a strict
rank increase. -/
theorem upsert_status_monotone_witness :
    status_rank "Announced" ≤ status_rank "Shipped" ∧
    status_rank "Announced" < status_rank "Shipped" :=
  ⟨upsert_status_monotone.1 [recAnnounced] [(recShipped, "2024-02-02")]
      "https://x/a" "Announced" "Shipped" (by decide) (by decide),
   upsert_status_monotone.2 [recAnnounced] recShipped "2024-02-02"
      "https://x/a" "Announced" "Shipped" (by decide) (by decide) (by decide)⟩

/-- Claim C2: if each source_url occurs in at most one ledger row,
that stays true after any sequence of merges; a single merge either
rewrites the row holding the incoming url in place or appends a row
whose url was absent. -/
theorem upsert_dedup_exclusive :
    (∀ rows ins, (rows.map Record.source_url).Nodup →
      ((run_upserts rows ins).map Record.source_url).Nodup) ∧
    (∀ rows inc d,
      (∃ i old, by_url_idx rows inc.source_url = some i ∧ rows[i]? = some old ∧
        old.source_url = inc.source_url ∧
        ((upsert rows inc d).2.2 = rows.set i (promoted_row old inc d) ∨
         (upsert rows inc d).2.2 = rows.set i (updated_row old inc d))) ∨
      ((∀ r ∈ rows, r.source_url ≠ inc.source_url) ∧
        (upsert rows inc d).2.2 = rows ++ [inc])) := by
  constructor
  · intro rows ins h
    induction ins generalizing rows with
    | nil => exact h
    | cons p rest ih =>
      obtain ⟨inc, d⟩ := p
      exact ih _ (upsert_nodup_step rows inc d h)
  · intro rows inc d
    cases hbi : by_url_idx rows inc.source_url with
    | some i =>
      obtain ⟨old, hgi, hurl⟩ := by_url_idx_get rows inc.source_url i hbi
      left
      refine ⟨i, old, rfl, hgi, hurl, ?_⟩
      rw [upsert_present rows inc d i old hbi hgi]
      by_cases hc : status_rank inc.status > status_rank old.status
      · left; rw [if_pos hc]
      · right; rw [if_neg hc]
    | none =>
      right
      exact ⟨by_url_idx_none rows inc.source_url hbi,
        by rw [upsert_absent rows inc d hbi]⟩

/-- Witness for C2 at a concrete input: merging a fresh record and
then a promotion into a one-row ledger keeps the url column
duplicate-free. -/
theorem upsert_dedup_exclusive_witness :
    ((run_upserts [recAnnounced] [(recPreview, "2024-02-02"), (recShipped, "2024-02-03")]).map
      Record.source_url).Nodup :=
  upsert_dedup_exclusive.1 [recAnnounced]
    [(recPreview, "2024-02-02"), (recShipped, "2024-02-03")] (by decide)

/-- Claim C3: merging a record whose url is absent, twice with the same
today, yields added then updated, and the second merge only refreshes
last_seen: the stored row after the first merge is the record itself,
and after the second it is the same record with last_seen set to
today. -/
theorem upsert_idempotent_refeed (rows : List Record) (r : Record) (d : String)
    (habs : by_url_idx rows r.source_url = none) :
    (upsert rows r d).1 = "added" ∧
    stored_record (upsert rows r d).2.2 r.source_url = some r ∧
    (upsert (upsert rows r d).2.2 r d).1 = "updated" ∧
    stored_record (upsert (upsert rows r d).2.2 r d).2.2 r.source_url =
      some { r with last_seen := d } := by
  rw [upsert_absent rows r d habs]
  have hi1 : by_url_idx (rows ++ [r]) r.source_url = some rows.length :=
    by_url_idx_append_self rows r
  have hg1 : (rows ++ [r])[rows.length]? = some r := List.getElem?_concat_length rows r
  have hupd : updated_row r r d = { r with last_seen := d } := by
    unfold updated_row
    split <;> rfl
  refine ⟨rfl, ?_, ?_, ?_⟩
  · unfold stored_record
    rw [hi1]
    simp only [Option.some_bind]
    exact hg1
  · rw [upsert_present (rows ++ [r]) r d rows.length r hi1 hg1,
      if_neg (lt_irrefl (status_rank r.status))]
  · rw [upsert_present (rows ++ [r]) r d rows.length r hi1 hg1,
      if_neg (lt_irrefl (status_rank r.status))]
    show stored_record ((rows ++ [r]).set rows.length (updated_row r r d)) r.source_url = _
    rw [stored_record_set_self (rows ++ [r]) rows.length r (updated_row r r d) hg1
      (updated_row_source_url r r d) hi1, hupd]

/-- Witness for C3 at a concrete input: feeding the same record into an
empty ledger twice. -/
theorem upsert_idempotent_refeed_witness :
    (upsert [] recAnnounced "2024-03-03").1 = "added" ∧
    stored_record (upsert [] recAnnounced "2024-03-03").2.2 recAnnounced.source_url =
      some recAnnounced ∧
    (upsert (upsert [] recAnnounced "2024-03-03").2.2 recAnnounced "2024-03-03").1 = "updated" ∧
    stored_record
      (upsert (upsert [] recAnnounced "2024-03-03").2.2 recAnnounced "2024-03-03").2.2
      recAnnounced.source_url = some { recAnnounced with last_seen := "2024-03-03" } :=
  upsert_idempotent_refeed [] recAnnounced "2024-03-03" (by decide)

/-- Claim C4: when the incoming record's url is stored and its status
outranks the stored one, the merge reports promoted, overwrites
status, change_type, summary and tags from the incoming record, dates
the promotion with today (not the incoming status_date), keeps the old
version when the incoming one is empty, and refreshes last_seen. -/
theorem upsert_promotion_effects (rows : List Record) (inc : Record) (d : String)
    (old : Record)
    (hold : stored_record rows inc.source_url = some old)
    (hrank : status_rank old.status < status_rank inc.status) :
    (upsert rows inc d).1 = "promoted" ∧
    stored_record (upsert rows inc d).2.2 inc.source_url =
      some { old with
        last_seen := d
        status := inc.status
        status_date := d
        change_type := inc.change_type
        version := if inc.version ≠ "" then inc.version else old.version
        summary := inc.summary
        tags := inc.tags } := by
  obtain ⟨i, hi, hgi, hurl⟩ := stored_record_some rows inc.source_url old hold
  rw [upsert_present rows inc d i old hi hgi, if_pos hrank]
  refine ⟨rfl, ?_⟩
  have h2 := stored_record_set_self rows i old (promoted_row old inc d) hgi
    (promoted_row_source_url old inc d) (by rw [hurl]; exact hi)
  rw [hurl] at h2
  exact h2

/-- Witness for C4 at a concrete input: Shipped arriving over a stored
Announced record. -/
theorem upsert_promotion_effects_witness :
    (upsert [recAnnounced] recShipped "2024-02-02").1 = "promoted" ∧
    stored_record (upsert [recAnnounced] recShipped "2024-02-02").2.2
      recShipped.source_url =
      some { recAnnounced with
        last_seen := "2024-02-02"
        status := recShipped.status
        status_date := "2024-02-02"
        change_type := recShipped.change_type
        version := if recShipped.version ≠ "" then recShipped.version
                   else recAnnounced.version
        summary := recShipped.summary
        tags := recShipped.tags } :=
  upsert_promotion_effects [recAnnounced] recShipped "2024-02-02" recAnnounced
    (by decide) (by decide)

/-- Claim C5: when the incoming record's url is stored and its status
does not outrank the stored one, the merge reports updated, refreshes
last_seen, overwrites the summary exactly when the incoming summary is
non-empty, and leaves every other field (status, status_date,
change_type, tags, and the rest) unchanged. -/
theorem upsert_update_frame (rows : List Record) (inc : Record) (d : String)
    (old : Record)
    (hold : stored_record rows inc.source_url = some old)
    (hrank : status_rank inc.status ≤ status_rank old.status) :
    (upsert rows inc d).1 = "updated" ∧
    stored_record (upsert rows inc d).2.2 inc.source_url =
      some { old with
        last_seen := d
        summary := if inc.summary ≠ "" then inc.summary else old.summary } := by
  obtain ⟨i, hi, hgi, hurl⟩ := stored_record_some rows inc.source_url old hold
  rw [upsert_present rows inc d i old hi hgi, if_neg (by omega)]
  refine ⟨rfl, ?_⟩
  have h2 := stored_record_set_self rows i old (updated_row old inc d) hgi
    (updated_row_source_url old inc d) (by rw [hurl]; exact hi)
  rw [hurl] at h2
  show stored_record (rows.set i (updated_row old inc d)) inc.source_url = _
  rw [h2, updated_row_eq]

/-- Witness for C5 at a concrete input: Preview arriving over a stored
Announced record only refreshes last_seen and the (non-empty)
summary. -/
theorem upsert_update_frame_witness :
    (upsert [recAnnounced] recPreview "2024-02-02").1 = "updated" ∧
    stored_record (upsert [recAnnounced] recPreview "2024-02-02").2.2
      recPreview.source_url =
      some { recAnnounced with
        last_seen := "2024-02-02"
        summary := if recPreview.summary ≠ "" then recPreview.summary
                   else recAnnounced.summary } :=
  upsert_update_frame [recAnnounced] recPreview "2024-02-02" recAnnounced
    (by decide) (by decide)

/-- Labels outside STATUS_RANK take the default rank 2. -/
theorem status_rank_unknown (s : String)
    (h : s ∉ STATUS_RANK.map Prod.fst) : status_rank s = 2 := by
  simp [STATUS_RANK] at h
  obtain ⟨h1, h2, h3, h4, h5, h6⟩ := h
  have e1 : (s == "Delayed") = false := beq_eq_false_iff_ne.mpr h1
  have e2 : (s == "Preview") = false := beq_eq_false_iff_ne.mpr h2
  have e3 : (s == "Announced") = false := beq_eq_false_iff_ne.mpr h3
  have e4 : (s == "Upgraded") = false := beq_eq_false_iff_ne.mpr h4
  have e5 : (s == "Shipped") = false := beq_eq_false_iff_ne.mpr h5
  have e6 : (s == "Deprecated") = false := beq_eq_false_iff_ne.mpr h6
  simp [status_rank, STATUS_RANK, List.lookup, e1, e2, e3, e4, e5, e6]

/-- Claim C10: an unrecognized status label is ranked 2 (Announced's
rank) rather than failing: a stored record with an unknown status is
promoted exactly when the incoming rank exceeds 2, and an incoming
record with an unknown status never promotes a stored record of rank
at least 2. -/
theorem status_rank_default_policy :
    (∀ s, s ∉ STATUS_RANK.map Prod.fst → status_rank s = 2) ∧
    (∀ rows inc d old,
      stored_record rows inc.source_url = some old →
      old.status ∉ STATUS_RANK.map Prod.fst →
      ((upsert rows inc d).1 = "promoted" ↔ 2 < status_rank inc.status)) ∧
    (∀ rows inc d old,
      stored_record rows inc.source_url = some old →
      inc.status ∉ STATUS_RANK.map Prod.fst →
      2 ≤ status_rank old.status →
      (upsert rows inc d).1 ≠ "promoted") := by
  refine ⟨status_rank_unknown, ?_, ?_⟩
  · intro rows inc d old hold hno
    obtain ⟨i, hi, hgi, hurl⟩ := stored_record_some rows inc.source_url old hold
    rw [upsert_present rows inc d i old hi hgi, status_rank_unknown old.status hno]
    by_cases hc : 2 < status_rank inc.status
    · rw [if_pos hc]
      simpa using hc
    · rw [if_neg hc]
      constructor
      · intro hcontr
        simp at hcontr
      · intro hcontr
        exact absurd hcontr hc
  · intro rows inc d old hold hno hge
    obtain ⟨i, hi, hgi, hurl⟩ := stored_record_some rows inc.source_url old hold
    rw [upsert_present rows inc d i old hi hgi, status_rank_unknown inc.status hno,
      if_neg (by omega)]
    simp

/-- Witness for C10 at concrete inputs: a stored "Removed" status is
promoted by Shipped (rank 4 > 2), and an incoming "Removed" does not
promote a stored Announced record. -/
theorem status_rank_default_policy_witness :
    status_rank "Removed" = 2 ∧
    ((upsert [recUnknown] recShipped "2024-02-02").1 = "promoted" ↔
      2 < status_rank recShipped.status) ∧
    (upsert [recAnnounced] recUnknown "2024-02-02").1 ≠ "promoted" :=
  ⟨status_rank_default_policy.1 "Removed" (by decide),
   status_rank_default_policy.2.1 [recUnknown] recShipped "2024-02-02" recUnknown
     (by decide) (by decide),
   status_rank_default_policy.2.2 [recAnnounced] recUnknown "2024-02-02" recAnnounced
     (by decide) (by decide) (by decide)⟩

-- ---------------------------------------------------------------
-- Claim theorems: sort_for_output
-- ---------------------------------------------------------------

theorem chars_lt_irrefl : ∀ l : List Char, chars_lt l l = false := by
  intro l
  induction l with
  | nil => rfl
  | cons a as ih =>
    simp only [chars_lt, if_pos rfl]
    exact ih

theorem chars_lt_trans : ∀ a b c : List Char,
    chars_lt a b = true → chars_lt b c = true → chars_lt a c = true := by
  intro a
  induction a with
  | nil =>
    intro b c h1 h2
    cases b with
    | nil => simp [chars_lt] at h1
    | cons y ys =>
      cases c with
      | nil => simp [chars_lt] at h2
      | cons z zs => rfl
  | cons x xs ih =>
    intro b c h1 h2
    cases b with
    | nil => simp [chars_lt] at h1
    | cons y ys =>
      cases c with
      | nil => simp [chars_lt] at h2
      | cons z zs =>
        simp only [chars_lt] at h1 h2 ⊢
        by_cases hxy : x = y
        · subst hxy
          rw [if_pos rfl] at h1
          by_cases hxz : x = z
          · subst hxz
            rw [if_pos rfl] at h2 ⊢
            exact ih ys zs h1 h2
          · rw [if_neg hxz] at h2 ⊢
            exact h2
        · rw [if_neg hxy] at h1
          have l1 : x < y := of_decide_eq_true h1
          by_cases hyz : y = z
          · subst hyz
            rw [if_neg hxy]
            exact decide_eq_true l1
          · rw [if_neg hyz] at h2
            have l2 : y < z := of_decide_eq_true h2
            have l3 : x < z := lt_trans l1 l2
            rw [if_neg (ne_of_lt l3)]
            exact decide_eq_true l3

theorem chars_lt_connex : ∀ a b : List Char, a ≠ b →
    (chars_lt a b || chars_lt b a) = true := by
  intro a
  induction a with
  | nil =>
    intro b hne
    cases b with
    | nil => exact absurd rfl hne
    | cons y ys => rfl
  | cons x xs ih =>
    intro b hne
    cases b with
    | nil => rfl
    | cons y ys =>
      simp only [chars_lt]
      by_cases hxy : x = y
      · subst hxy
        rw [if_pos rfl, if_pos rfl]
        exact ih ys (fun ht => hne (ht ▸ rfl))
      · rw [if_neg hxy, if_neg (Ne.symm hxy)]
        rcases lt_or_gt_of_ne hxy with h | h
        · rw [decide_eq_true h, Bool.true_or]
        · rw [decide_eq_true h, Bool.or_true]

theorem strs_lex_le_trans : ∀ a b c : List String,
    strs_lex_le a b = true → strs_lex_le b c = true → strs_lex_le a c = true := by
  intro a
  induction a with
  | nil => intro b c h1 h2; rfl
  | cons x xs ih =>
    intro b c h1 h2
    cases b with
    | nil => simp [strs_lex_le] at h1
    | cons y ys =>
      cases c with
      | nil => simp [strs_lex_le] at h2
      | cons z zs =>
        simp only [strs_lex_le] at h1 h2 ⊢
        by_cases hxy : x = y
        · subst hxy
          rw [if_pos rfl] at h1
          by_cases hxz : x = z
          · subst hxz
            rw [if_pos rfl] at h2 ⊢
            exact ih ys zs h1 h2
          · rw [if_neg hxz] at h2 ⊢
            exact h2
        · rw [if_neg hxy] at h1
          by_cases hyz : y = z
          · subst hyz
            rw [if_neg hxy]
            exact h1
          · rw [if_neg hyz] at h2
            have l3 : chars_lt x.data z.data = true :=
              chars_lt_trans x.data y.data z.data h1 h2
            by_cases hxz : x = z
            · rw [hxz, chars_lt_irrefl] at l3
              exact absurd l3 Bool.false_ne_true
            · rw [if_neg hxz]
              exact l3

theorem strs_lex_le_total : ∀ a b : List String,
    (strs_lex_le a b || strs_lex_le b a) = true := by
  intro a
  induction a with
  | nil => intro b; simp [strs_lex_le]
  | cons x xs ih =>
    intro b
    cases b with
    | nil => simp [strs_lex_le]
    | cons y ys =>
      simp only [strs_lex_le]
      by_cases hxy : x = y
      · subst hxy
        rw [if_pos rfl, if_pos rfl]
        exact ih ys
      · rw [if_neg hxy, if_neg (Ne.symm hxy)]
        exact chars_lt_connex x.data y.data
          (fun hd => hxy (String.ext hd))

instance : IsTrans Record sort_rel :=
  ⟨fun a b c h1 h2 => strs_lex_le_trans (sort_key c) (sort_key b) (sort_key a) h2 h1⟩

instance : IsTotal Record sort_rel :=
  ⟨fun a b => by
    have h := strs_lex_le_total (sort_key b) (sort_key a)
    rcases (Bool.or_eq_true _ _).mp h with h1 | h1
    · exact Or.inl h1
    · exact Or.inr h1⟩

/-- Claim C6, amended: the persisted-ledger sort returns a permutation
of the rows ordered by the key tuple (status_date, last_seen, company,
product) DESCENDING in all four components — Python `reverse=True`
reverses the whole tuple comparison, so company and product are
descending too, not ascending as the spec sentence says. -/
theorem sort_for_output_order (rows : List Record) :
    (sort_for_output rows).Perm rows ∧
    (sort_for_output rows).Pairwise sort_rel :=
  ⟨List.perm_insertionSort sort_rel rows,
   List.sorted_insertionSort sort_rel rows⟩

/-- Counterexample to C6 as stated: two rows with identical dates and
companies "A" and "B" are output as ["B", "A"] — company is ordered
descending, so the claimed company-ascending order is violated. -/
theorem sort_for_output_claim_counterexample :
    sort_for_output [rowCompanyA, rowCompanyB] = [rowCompanyB, rowCompanyA] ∧
    ¬ (sort_for_output [rowCompanyA, rowCompanyB]).Pairwise
        (fun r1 r2 => spec_sort_le r1 r2 = true) := by
  refine ⟨by decide, ?_⟩
  intro hp
  rw [show sort_for_output [rowCompanyA, rowCompanyB] = [rowCompanyB, rowCompanyA]
      from by decide] at hp
  cases hp with
  | cons h1 h2 =>
    have hba := h1 rowCompanyA (List.mem_singleton.mpr rfl)
    exact absurd hba (by decide)

-- ---------------------------------------------------------------
-- Claim theorems: hash_id
-- ---------------------------------------------------------------

theorem collapse_go_chars (l : List Char) :
    ∀ b, (collapse_go b l).all (fun ch => id_keep ch || ch == '-') = true := by
  induction l with
  | nil => intro b; rfl
  | cons c cs ih =>
    intro b
    simp only [collapse_go]
    cases hk : id_keep c
    · cases b
      · simp [hk, List.all_cons, ih]
      · simp [hk, ih]
    · simp [hk, List.all_cons, ih]

/-- Claim C7, amended: hash_id is deterministic, at most 64 characters
long, and each output character is a lowercase letter, a digit, an
UNDERSCORE, or a hyphen — the regex class is `[^a-z0-9_]`, so
underscores survive; they are not alphanumeric, contradicting the
claim's "no non-alphanumeric character other than the hyphen". -/
theorem hash_id_charset (company title date_str : List Char) :
    (hash_id company title date_str).length ≤ 64 ∧
    (hash_id company title date_str).all (fun ch => id_keep ch || ch == '-') = true := by
  constructor
  · unfold hash_id
    exact List.length_take_le 64 _
  · unfold hash_id collapse_runs
    have hall := collapse_go_chars
      (pyLower (company ++ '|' :: (title ++ '|' :: date_str))) false
    rw [List.all_eq_true] at hall ⊢
    intro ch hch
    exact hall ch (List.mem_of_mem_take hch)

/-- Counterexample to C7 as stated: with an underscore in the company
name, the identity keeps the underscore, a non-alphanumeric character
that is not the hyphen. -/
theorem hash_id_claim_counterexample :
    hash_id (String.toList "a_b") (String.toList "T!tle") (String.toList "2024-01-01")
      = String.toList "a_b-t-tle-2024-01-01" ∧
    '_' ∈ hash_id (String.toList "a_b") (String.toList "T!tle")
      (String.toList "2024-01-01") ∧
    Char.isAlphanum '_' = false ∧ '_' ≠ '-' := by decide

-- ---------------------------------------------------------------
-- Claim theorems: classify_status
-- ---------------------------------------------------------------

/-- Claim C8: the classifier's rule list is ordered Shipped, Upgraded,
Announced, Preview, Deprecated, Delayed and is evaluated first match
wins; the text "Now Available: Foo Beta" matches both the Shipped and
the Preview patterns and therefore classifies as Shipped. -/
theorem classify_status_precedence :
    STATUS_KEYWORDS.map Prod.fst =
      ["Shipped", "Upgraded", "Announced", "Preview", "Deprecated", "Delayed"] ∧
    re_search shippedRE (pyLower nowAvailableBeta) = true ∧
    re_search previewRE (pyLower nowAvailableBeta) = true ∧
    classify_status nowAvailableBeta = "Shipped" := by
  refine ⟨by decide, by decide, by decide, by decide⟩

-- ---------------------------------------------------------------
-- Claim theorems: normalize_summary
-- ---------------------------------------------------------------

theorem opt_max_eq_some (x y : Option Nat) (m : Nat)
    (h : opt_max x y = some m) : x = some m ∨ y = some m := by
  cases x with
  | none =>
    cases y with
    | none => simp [opt_max] at h
    | some j => exact Or.inr h
  | some i =>
    cases y with
    | none => exact Or.inl h
    | some j =>
      simp only [opt_max, Option.some_inj] at h
      rcases Nat.le_total i j with hle | hle
      · right
        rw [Nat.max_eq_right hle] at h
        rw [h]
      · left
        rw [Nat.max_eq_left hle] at h
        rw [h]

theorem rfind2_bound (a b : Char) : ∀ (l : List Char) (i : Nat),
    rfind2 a b l = some i → i + 2 ≤ l.length := by
  intro l
  induction l with
  | nil => intro i h; simp [rfind2] at h
  | cons c cs ih =>
    intro i h
    cases cs with
    | nil => simp [rfind2] at h
    | cons d rest =>
      simp only [rfind2] at h
      cases hrec : rfind2 a b (d :: rest) with
      | some j =>
        rw [hrec] at h
        cases h
        have := ih j hrec
        simp only [List.length_cons] at *
        omega
      | none =>
        rw [hrec] at h
        by_cases hc : (c == a && d == b) = true
        · rw [if_pos hc] at h
          cases h
          simp only [List.length_cons]
          omega
        · rw [if_neg hc] at h
          cases h

theorem last_sentence_bound (t : List Char) (i : Nat)
    (h : last_sentence_idx t = some i) : i + 2 ≤ t.length := by
  unfold last_sentence_idx at h
  rcases opt_max_eq_some _ _ _ h with h2 | h2
  · rcases opt_max_eq_some _ _ _ h2 with h3 | h3
    · exact rfind2_bound '.' ' ' t i h3
    · exact rfind2_bound '.' '\n' t i h3
  · exact rfind2_bound '.' '\t' t i h2

theorem rstrip_pref (l : List Char) : rstrip l <+: l := by
  unfold rstrip
  obtain ⟨t, ht⟩ := List.dropWhile_suffix (l := l.reverse) pyIsSpace
  exact ⟨t.reverse, by rw [← List.reverse_append, ht, List.reverse_reverse]⟩

theorem take_of_pref {α : Type} (p l : List α) (n : Nat)
    (hp : p <+: l) (hn : n ≤ p.length) : p.take n = l.take n := by
  obtain ⟨t, rfl⟩ := hp
  rw [List.take_append_eq_append_take, Nat.sub_eq_zero_of_le hn,
    List.take_zero, List.append_nil]

theorem dropWhile_idem (p : Char → Bool) : ∀ l : List Char,
    (l.dropWhile p).dropWhile p = l.dropWhile p := by
  intro l
  induction l with
  | nil => rfl
  | cons c cs ih =>
    cases hc : p c
    · simp [List.dropWhile_cons, hc]
    · simp [List.dropWhile_cons, hc, ih]

theorem rstrip_idem (l : List Char) : rstrip (rstrip l) = rstrip l := by
  unfold rstrip
  rw [List.reverse_reverse, dropWhile_idem]

theorem strip_rstrip (l : List Char) : strip (rstrip l) = strip l := by
  unfold strip
  rw [rstrip_idem]

/-- Claim C9: a 600-char cleaned summary whose last sentence boundary
(in the 500-char truncation window) sits at offset 420 — past the
200-char threshold — is cut to end at that period (offset 421
exclusive, then stripped); a longer-than-500 summary with no sentence
boundary past the threshold is hard-cut at 500 characters (then
stripped). -/
theorem normalize_summary_truncation :
    (∀ cleaned fallback : List Char, cleaned.length = 600 →
      last_sentence_idx (rstrip (cleaned.take 500)) = some 420 →
      normalize_summary cleaned fallback = strip (cleaned.take 421)) ∧
    (∀ cleaned fallback : List Char, 500 < cleaned.length →
      (last_sentence_idx (rstrip (cleaned.take 500))).getD 0 ≤ 200 →
      normalize_summary cleaned fallback = strip (cleaned.take 500)) := by
  constructor
  · intro cleaned fallback hlen hls
    have hne : cleaned ≠ [] := by
      intro h
      rw [h] at hlen
      simp at hlen
    have hgt : ¬ cleaned.length ≤ 500 := by omega
    unfold normalize_summary
    rw [if_neg hne, if_neg hgt]
    simp only [hls]
    rw [if_pos (by omega : (200 : Nat) < 420)]
    show strip ((rstrip (cleaned.take 500)).take 421) = _
    have hlb : 422 ≤ (rstrip (cleaned.take 500)).length := by
      have := last_sentence_bound _ _ hls
      omega
    rw [take_of_pref _ _ 421 (rstrip_pref (cleaned.take 500)) (by omega),
      List.take_take]
    norm_num
  · intro cleaned fallback hlen hle
    have hne : cleaned ≠ [] := by
      intro h
      rw [h] at hlen
      simp at hlen
    have hgt : ¬ cleaned.length ≤ 500 := by omega
    unfold normalize_summary
    rw [if_neg hne, if_neg hgt]
    cases hls : last_sentence_idx (rstrip (cleaned.take 500)) with
    | none =>
      simp only [hls]
      exact strip_rstrip _
    | some i =>
      rw [hls] at hle
      simp only [Option.getD_some] at hle
      simp only [hls]
      rw [if_neg (by omega)]
      exact strip_rstrip _

set_option maxRecDepth 100000 in
/-- Witness for C9 at concrete inputs: the 600-char summary with a
". " boundary at offset 420 is cut at the period; the 601-char summary
whose only boundary sits at offset 100 is hard-cut at 500. -/
theorem normalize_summary_truncation_witness :
    normalize_summary summary600 [] = strip (summary600.take 421) ∧
    normalize_summary summary601 [] = strip (summary601.take 500) :=
  ⟨normalize_summary_truncation.1 summary600 [] (by decide) (by decide),
   normalize_summary_truncation.2 summary601 [] (by decide) (by decide)⟩

end AiRadar
